import Mathlib

set_option linter.unusedVariables false

/-!
Verification of the brainrust interpreter (src/main.rs).

Shallow embedding conventions:
* `u8` cell values and `usize` indices are embedded as `Nat`; machine
  arithmetic that can overflow is taken with an explicit modulus
  (`% 256` for cells, `% 2 ^ 64` for `usize`), i.e. the wrapping
  semantics of the release build.
* Array/Vec indexing is bounds checked in Rust (out of range aborts the
  process); an operation that can abort is embedded as an `Option`
  (or `StepOutcome`) returning `none` / `.panic` on abort.  `todo!()`
  likewise aborts and is embedded as `none`.
* `process::exit(code)` inside the engine is embedded as the
  `StepOutcome.processExit code` outcome.
* The `prog_src` and `display_spec` fields of `Machine` feed only the
  terminal renderer (out of scope here) and are omitted; `output` is
  kept as the list of byte values pushed by `Output`.
-/

/-- `Command` from src/main.rs.  `JumpForward` is the spec's JumpIfZero
(compiled from a `[`), `JumpBackward` is the spec's JumpIfNonZero
(compiled from a `]`); the payload is the matching delimiter's index. -/
inductive Command where
  | JumpForward (target : Nat)
  | JumpBackward (target : Nat)
  | DecPtr
  | IncPtr
  | DecData
  | IncData
  | Input
  | Output
  | NoOp
deriving DecidableEq

/-- `Instruction` from src/main.rs: a command with its source character
and screen position. -/
structure Instruction where
  command : Command
  ch : Char
  pos : Nat × Nat
deriving DecidableEq

/-- The character-to-command table of `parse`'s match, restricted to the
arms that carry no parser state (everything except `[`, `]`, `'\n'`,
which `parseLoop` handles in place). -/
def charCommand (ch : Char) : Command :=
  if ch = '<' then Command.DecPtr
  else if ch = '>' then Command.IncPtr
  else if ch = '-' then Command.DecData
  else if ch = '+' then Command.IncData
  else if ch = '.' then Command.Output
  else if ch = ',' then Command.Input
  else Command.NoOp

/-- `instructions[match_pos].command = c;` — in-place update of the
`command` field at index `idx`, keeping the satellite data. -/
def patchAt (l : List Instruction) (idx : Nat) (c : Command) : List Instruction :=
  match l, idx with
  | [], _ => []
  | ins :: rest, 0 => { ins with command := c } :: rest
  | ins :: rest, n + 1 => ins :: patchAt rest n c

/-- The mutable state of `parse`'s for-loop: the instructions emitted so
far, the stack of open-bracket indices, and the screen position
counters. -/
structure ParseState where
  instructions : List Instruction
  brack_stack : List Nat
  pos_x : Nat
  pos_y : Nat
deriving DecidableEq

/-- The body of `parse` (src/main.rs lines 43-91): one left-to-right
pass over the characters, the index `i` counting from the caller's
start.  On `[` push `i` and emit the `JumpForward(0)` placeholder; on
`]` pop (`none` when the stack is empty, Rust's `ok_or(())?`), patch the
popped position to `JumpForward(i)` and emit `JumpBackward(match_pos)`;
`'\n'` bumps `pos_y` before the instruction is pushed and resets
`pos_x` after. -/
def parseLoop : List Char → Nat → ParseState → Option ParseState
  | [], _, st => some st
  | ch :: rest, i, st =>
    if ch = '[' then
      parseLoop rest (i + 1)
        ⟨st.instructions ++ [⟨Command.JumpForward 0, ch, (st.pos_x, st.pos_y)⟩],
         i :: st.brack_stack, st.pos_x + 1, st.pos_y⟩
    else if ch = ']' then
      match st.brack_stack with
      | [] => none
      | match_pos :: stackRest =>
        parseLoop rest (i + 1)
          ⟨patchAt st.instructions match_pos (Command.JumpForward i) ++
             [⟨Command.JumpBackward match_pos, ch, (st.pos_x, st.pos_y)⟩],
           stackRest, st.pos_x + 1, st.pos_y⟩
    else if ch = '\n' then
      parseLoop rest (i + 1)
        ⟨st.instructions ++ [⟨Command.NoOp, ch, (st.pos_x, st.pos_y + 1)⟩],
         st.brack_stack, 0, st.pos_y + 1⟩
    else
      parseLoop rest (i + 1)
        ⟨st.instructions ++ [⟨charCommand ch, ch, (st.pos_x, st.pos_y)⟩],
         st.brack_stack, st.pos_x + 1, st.pos_y⟩

/-- `parse` run from the initial loop state, with the final loop state
(including the leftover bracket stack) still visible. -/
def parseFull (chs : List Char) : Option ParseState :=
  parseLoop chs 0 ⟨[], [], 0, 0⟩

/-- `parse` from src/main.rs: the emitted instruction sequence, `none`
on the one failure path (pop of an empty bracket stack).  Note the
source returns `Ok(instructions)` even when `brack_stack` is not empty
at the end of the scan. -/
def parse (chs : List Char) : Option (List Instruction) :=
  (parseFull chs).map ParseState.instructions

/-- The command stored at index `j` of an instruction sequence. -/
def cmdAt (l : List Instruction) (j : Nat) : Option Command :=
  (l.get? j).map Instruction.command

/-- `MEM_SIZE` from src/main.rs. -/
def MEM_SIZE : Nat := 30000

/-- One past the largest `usize` value: the modulus of `usize`
arithmetic. -/
def USIZE : Nat := 2 ^ 64

/-- Wrapping `usize` subtraction of 1 (what `x - 1` does to a `usize`
in a release build; a debug build aborts at 0 instead, and every use
below that wraps at 0 is followed by an aborting out-of-bounds index
anyway). -/
def wsub1 (a : Nat) : Nat := (a + (USIZE - 1)) % USIZE

/-- `Machine` from src/main.rs, without the render-only `prog_src` and
`display_spec` fields; `output` keeps the byte values pushed by
`Output`.  The tape `data` is a total function read only at checked
indices (`readCell`), matching the `[u8; MEM_SIZE]` array. -/
structure Machine where
  prog : List Instruction
  data : Nat → Nat
  prog_ctr : Nat
  data_ptr : Nat
  last_data_cell : Nat
  output : List Nat

/-- `self.data[self.data_ptr]`: bounds-checked array read; an index at
or past `MEM_SIZE` aborts (`none`). -/
def readCell (m : Machine) : Option Nat :=
  if m.data_ptr < MEM_SIZE then some (m.data m.data_ptr) else none

/-- `self.data[i] = v`: pointwise array store. -/
def updateTape (data : Nat → Nat) (i v : Nat) : Nat → Nat :=
  fun j => if j = i then v else data j

/-- The rescan loop of `dec_data`:
`while self.data[p] == 0 || p > 0 { p -= 1; }` started at `p`.
When the condition still holds at `p = 0` (that is, when `data 0 = 0`)
the `p -= 1` underflows the `usize` and the program aborts (`none`):
debug builds abort at the subtraction, release builds wrap `p` to
`2 ^ 64 - 1` and abort at the next `self.data[p]` read. -/
def scanLeft (data : Nat → Nat) : Nat → Option Nat
  | 0 => if data 0 = 0 ∨ 0 < 0 then none else some 0
  | q + 1 => if data (q + 1) = 0 ∨ 0 < q + 1 then scanLeft data q else some (q + 1)

/-- `Machine::jmp_eq` (jump to `i` if the cell under the read head is
zero), with the cell read bounds checked. -/
def jmp_eq (m : Machine) (i : Nat) : Option Machine :=
  (readCell m).map fun v => if v = 0 then { m with prog_ctr := i } else m

/-- `Machine::jmp_ne` (jump to `i` if the cell under the read head is
nonzero), with the cell read bounds checked. -/
def jmp_ne (m : Machine) (i : Nat) : Option Machine :=
  (readCell m).map fun v => if v ≠ 0 then { m with prog_ctr := i } else m

/-- `Machine::dec_data` (src/main.rs lines 237-247): wrapping decrement
of the cell under the read head, then — when the cell reached 0 at the
tracked extent — the leftward rescan for the new `last_data_cell`. -/
def dec_data (m : Machine) : Option Machine :=
  match readCell m with
  | none => none
  | some v0 =>
    let v := (v0 + 255) % 256
    let data1 := updateTape m.data m.data_ptr v
    if v = 0 ∧ m.data_ptr = m.last_data_cell then
      match scanLeft data1 m.data_ptr with
      | none => none
      | some p => some { m with data := data1, last_data_cell := p }
    else
      some { m with data := data1 }

/-- `Machine::inc_data` (src/main.rs lines 250-256): extend the extent
when a zero cell past it is about to become nonzero, then wrapping
increment of the cell under the read head. -/
def inc_data (m : Machine) : Option Machine :=
  match readCell m with
  | none => none
  | some v0 =>
    let m1 := if v0 = 0 ∧ m.last_data_cell < m.data_ptr
              then { m with last_data_cell := m.data_ptr } else m
    some { m1 with data := updateTape m.data m.data_ptr ((v0 + 1) % 256) }

/-- `Machine::execute` (src/main.rs lines 207-219): dispatch on the
command under the program counter.  The instruction fetch
`self.prog[self.prog_ctr]` is a bounds-checked Vec index (`none` when
out of range); `DecPtr`/`IncPtr` are the unchecked wrapping `usize`
updates of the source; `Input` is `todo!()`, which aborts. -/
def execute (m : Machine) : Option Machine :=
  match m.prog.get? m.prog_ctr with
  | none => none
  | some ins =>
    match ins.command with
    | Command.JumpForward i => jmp_eq m i
    | Command.JumpBackward i => jmp_ne m i
    | Command.DecPtr => some { m with data_ptr := wsub1 m.data_ptr }
    | Command.IncPtr => some { m with data_ptr := (m.data_ptr + 1) % USIZE }
    | Command.DecData => dec_data m
    | Command.IncData => inc_data m
    | Command.Output => (readCell m).map fun v => { m with output := m.output ++ [v] }
    | Command.Input => none
    | Command.NoOp => some m

/-- How one engine step hands control back: a successor machine state,
a `process::exit(code)` performed inside the engine, or an abort
(panic).  The source has no `Completed` or `Failed` result value — end
of program is `processExit 0`. -/
inductive StepOutcome where
  | next (m : Machine)
  | processExit (code : Nat)
  | panic

/-- `Machine::inc_prog_ctr` (src/main.rs lines 198-204): at the last
instruction (`prog_ctr == prog.len() - 1`, the subtraction taken with
`usize` wrapping) the process exits with code 0; otherwise the program
counter advances. -/
def inc_prog_ctr (m : Machine) : StepOutcome :=
  if m.prog_ctr = wsub1 m.prog.length then StepOutcome.processExit 0
  else StepOutcome.next { m with prog_ctr := m.prog_ctr + 1 }

/-- The `while let Command::NoOp` loop of `Machine::advance`, with the
body of `inc_prog_ctr` inlined at its call site (same exit condition
and `process::exit`); the `self.prog[self.prog_ctr]` fetch is bounds
checked. -/
def skipNoOps (m : Machine) : StepOutcome :=
  match h : m.prog.get? m.prog_ctr with
  | none => StepOutcome.panic
  | some ins =>
    if ins.command = Command.NoOp then
      if m.prog_ctr = wsub1 m.prog.length then StepOutcome.processExit 0
      else skipNoOps { m with prog_ctr := m.prog_ctr + 1 }
    else StepOutcome.next m
termination_by m.prog.length - m.prog_ctr
decreasing_by
  have hlt : m.prog_ctr < m.prog.length := by
    by_contra hge
    rw [List.get?_eq_none.mpr (by omega)] at h
    exact Option.noConfusion h
  omega

/-- `Machine::advance` (src/main.rs lines 189-195): execute the command
under the read head, advance the program counter, then skip `NoOp`s. -/
def advance (m : Machine) : StepOutcome :=
  match execute m with
  | none => StepOutcome.panic
  | some m1 =>
    match inc_prog_ctr m1 with
    | StepOutcome.next m2 => skipNoOps m2
    | out => out

/-- `Machine::new` (src/main.rs lines 128-145): parse the program and
build the initial machine (all tape cells 0, both pointers 0, extent
0, empty output). -/
def Machine.new (program : List Char) : Option Machine :=
  (parse program).map fun instrs =>
    { prog := instrs, data := fun _ => 0, prog_ctr := 0, data_ptr := 0,
      last_data_cell := 0, output := [] }

/-- Bracket-balance checker: depth counting over the text, failing on a
close at depth 0 and requiring depth 0 at the end. -/
def balCheck : List Char → Nat → Bool
  | [], d => d == 0
  | ch :: rest, d =>
    if ch = '[' then balCheck rest (d + 1)
    else if ch = ']' then
      match d with
      | 0 => false
      | e + 1 => balCheck rest e
    else balCheck rest d

/-- A source text has balanced brackets: no close without a matching
open, and no open left unmatched. -/
@[reducible] def balancedBrackets (chs : List Char) : Prop := balCheck chs 0 = true

/-- A source text contains a `]` with no matching earlier unclosed `[`
(reading from bracket depth `d`): the scan reaches a close bracket at
depth 0. -/
def unmatchedClose : List Char → Nat → Bool
  | [], _ => false
  | ch :: rest, d =>
    if ch = '[' then unmatchedClose rest (d + 1)
    else if ch = ']' then
      match d with
      | 0 => true
      | e + 1 => unmatchedClose rest e
    else unmatchedClose rest d

/-! ## Basic lemmas about `cmdAt` and `patchAt` -/

theorem cmdAt_nil (j : Nat) : cmdAt [] j = none := by
  cases j <;> rfl

theorem cmdAt_lt_length {l : List Instruction} {j : Nat} {c : Command}
    (h : cmdAt l j = some c) : j < l.length := by
  by_contra hge
  unfold cmdAt at h
  rw [List.get?_eq_none.mpr (by omega)] at h
  exact Option.noConfusion h

theorem cmdAt_append_lt {l : List Instruction} (x : Instruction) {j : Nat}
    (h : j < l.length) : cmdAt (l ++ [x]) j = cmdAt l j := by
  unfold cmdAt
  rw [List.get?_append h]

theorem cmdAt_append_self (l : List Instruction) (x : Instruction) :
    cmdAt (l ++ [x]) l.length = some x.command := by
  unfold cmdAt
  rw [List.get?_concat_length]
  rfl

theorem patchAt_length (l : List Instruction) (idx : Nat) (c : Command) :
    (patchAt l idx c).length = l.length := by
  induction l generalizing idx with
  | nil => rfl
  | cons ins rest ih =>
    cases idx with
    | zero => rfl
    | succ n => simpa [patchAt] using ih n

theorem cmdAt_patchAt_self {l : List Instruction} {idx : Nat} (c : Command)
    (h : idx < l.length) : cmdAt (patchAt l idx c) idx = some c := by
  induction l generalizing idx with
  | nil => simp at h
  | cons ins rest ih =>
    cases idx with
    | zero => rfl
    | succ n => exact ih (by simpa using h)

theorem cmdAt_patchAt_ne {l : List Instruction} {idx j : Nat} (c : Command)
    (h : j ≠ idx) : cmdAt (patchAt l idx c) j = cmdAt l j := by
  induction l generalizing idx j with
  | nil => cases idx <;> rfl
  | cons ins rest ih =>
    cases idx with
    | zero =>
      cases j with
      | zero => exact absurd rfl h
      | succ k => rfl
    | succ n =>
      cases j with
      | zero => rfl
      | succ k =>
        show cmdAt (ins :: patchAt rest n c) (k + 1) = cmdAt (ins :: rest) (k + 1)
        exact ih (by omega)

/-! ## The linking invariant of the parse loop -/

/-- Invariant of `parseLoop`'s state after `i` characters: `i`
instructions were emitted; the bracket stack holds strictly decreasing
indices of unpatched `JumpForward 0` placeholders; every `JumpForward`
off the stack has already been patched to point strictly forward at a
`JumpBackward` that points back at it; and every `JumpBackward` points
strictly backward. -/
def ParseInv (instrs : List Instruction) (stack : List Nat) (i : Nat) : Prop :=
  instrs.length = i ∧
  (∀ s ∈ stack, s < i ∧ cmdAt instrs s = some (Command.JumpForward 0)) ∧
  stack.Pairwise (fun a b => b < a) ∧
  (∀ j t, j ∉ stack → cmdAt instrs j = some (Command.JumpForward t) →
    j < t ∧ t < i ∧ cmdAt instrs t = some (Command.JumpBackward j)) ∧
  (∀ j t, cmdAt instrs j = some (Command.JumpBackward t) → t < j)

theorem ParseInv_init : ParseInv [] [] 0 := by
  refine ⟨rfl, by simp, by simp, ?_, ?_⟩
  · intro j t _ hc
    rw [cmdAt_nil] at hc
    exact Option.noConfusion hc
  · intro j t hc
    rw [cmdAt_nil] at hc
    exact Option.noConfusion hc

/-- Appending a non-jump instruction preserves the invariant. -/
theorem ParseInv_append_plain {instrs : List Instruction} {stack : List Nat} {i : Nat}
    (ins : Instruction)
    (hJF : ∀ t, ins.command ≠ Command.JumpForward t)
    (hJB : ∀ t, ins.command ≠ Command.JumpBackward t)
    (h : ParseInv instrs stack i) :
    ParseInv (instrs ++ [ins]) stack (i + 1) := by
  obtain ⟨hlen, hstk, hpw, hfwd, hbwd⟩ := h
  refine ⟨by simp [hlen], ?_, hpw, ?_, ?_⟩
  · intro s hs
    obtain ⟨hsi, hcmd⟩ := hstk s hs
    refine ⟨by omega, ?_⟩
    rw [cmdAt_append_lt ins (by omega)]
    exact hcmd
  · intro j t hj hcmd
    have hjlt : j < i + 1 := by
      have := cmdAt_lt_length hcmd
      simpa [hlen] using this
    rcases Nat.lt_or_ge j i with hlt | hge
    · rw [cmdAt_append_lt ins (by omega)] at hcmd
      obtain ⟨h1, h2, h3⟩ := hfwd j t hj hcmd
      refine ⟨h1, by omega, ?_⟩
      rw [cmdAt_append_lt ins (by omega)]
      exact h3
    · have hje : j = instrs.length := by omega
      rw [hje, cmdAt_append_self] at hcmd
      exact absurd (Option.some.inj hcmd) (hJF t)
  · intro j t hcmd
    have hjlt : j < i + 1 := by
      have := cmdAt_lt_length hcmd
      simpa [hlen] using this
    rcases Nat.lt_or_ge j i with hlt | hge
    · rw [cmdAt_append_lt ins (by omega)] at hcmd
      exact hbwd j t hcmd
    · have hje : j = instrs.length := by omega
      rw [hje, cmdAt_append_self] at hcmd
      exact absurd (Option.some.inj hcmd) (hJB t)

/-- The `[` step (push `i`, emit the placeholder) preserves the
invariant. -/
theorem ParseInv_push {instrs : List Instruction} {stack : List Nat} {i : Nat}
    (ch : Char) (p : Nat × Nat)
    (h : ParseInv instrs stack i) :
    ParseInv (instrs ++ [⟨Command.JumpForward 0, ch, p⟩]) (i :: stack) (i + 1) := by
  obtain ⟨hlen, hstk, hpw, hfwd, hbwd⟩ := h
  refine ⟨by simp [hlen], ?_, ?_, ?_, ?_⟩
  · intro s hs
    rcases List.mem_cons.mp hs with hsi | hs'
    · subst hsi
      refine ⟨by omega, ?_⟩
      have := cmdAt_append_self instrs ⟨Command.JumpForward 0, ch, p⟩
      rw [hlen] at this
      exact this
    · obtain ⟨hsi, hcmd⟩ := hstk s hs'
      refine ⟨by omega, ?_⟩
      rw [cmdAt_append_lt _ (by omega)]
      exact hcmd
  · rw [List.pairwise_cons]
    exact ⟨fun b hb => (hstk b hb).1, hpw⟩
  · intro j t hj hcmd
    have hji : j ≠ i := fun he => hj (he ▸ List.mem_cons_self j stack)
    have hj' : j ∉ stack := fun hm => hj (List.mem_cons_of_mem i hm)
    have hjlt : j < i + 1 := by
      have := cmdAt_lt_length hcmd
      simpa [hlen] using this
    have hlt : j < i := by omega
    rw [cmdAt_append_lt _ (by omega)] at hcmd
    obtain ⟨h1, h2, h3⟩ := hfwd j t hj' hcmd
    refine ⟨h1, by omega, ?_⟩
    rw [cmdAt_append_lt _ (by omega)]
    exact h3
  · intro j t hcmd
    have hjlt : j < i + 1 := by
      have := cmdAt_lt_length hcmd
      simpa [hlen] using this
    rcases Nat.lt_or_ge j i with hlt | hge
    · rw [cmdAt_append_lt _ (by omega)] at hcmd
      exact hbwd j t hcmd
    · have hje : j = instrs.length := by omega
      rw [hje, cmdAt_append_self] at hcmd
      exact Command.noConfusion (Option.some.inj hcmd)

/-- The `]` step (pop `match_pos`, patch it to `JumpForward i`, emit
`JumpBackward match_pos`) preserves the invariant. -/
theorem ParseInv_pop {instrs : List Instruction} {m : Nat} {stackRest : List Nat} {i : Nat}
    (ch : Char) (p : Nat × Nat)
    (h : ParseInv instrs (m :: stackRest) i) :
    ParseInv (patchAt instrs m (Command.JumpForward i) ++
          [⟨Command.JumpBackward m, ch, p⟩]) stackRest (i + 1) := by
  obtain ⟨hlen, hstk, hpw, hfwd, hbwd⟩ := h
  obtain ⟨hmi, hcm⟩ := hstk m (List.mem_cons_self m stackRest)
  have hrest_lt_m : ∀ b ∈ stackRest, b < m := (List.pairwise_cons.mp hpw).1
  have hpatch_len : (patchAt instrs m (Command.JumpForward i)).length = i := by
    rw [patchAt_length, hlen]
  refine ⟨by simp [hpatch_len], ?_, (List.pairwise_cons.mp hpw).2, ?_, ?_⟩
  · intro s hs
    obtain ⟨hsi, hcmd⟩ := hstk s (List.mem_cons_of_mem m hs)
    have hsm : s ≠ m := by
      have := hrest_lt_m s hs
      omega
    refine ⟨by omega, ?_⟩
    rw [cmdAt_append_lt _ (by omega), cmdAt_patchAt_ne _ hsm]
    exact hcmd
  · intro j t hj hcmd
    have hjlt : j < i + 1 := by
      have := cmdAt_lt_length hcmd
      simpa [hpatch_len] using this
    rcases Nat.lt_or_ge j i with hlt | hge
    · rcases eq_or_ne j m with hjm | hjm
      · -- the freshly patched pair
        subst hjm
        rw [cmdAt_append_lt _ (by omega), cmdAt_patchAt_self _ (by omega)] at hcmd
        have ht : t = i := by
          have := Option.some.inj hcmd
          cases this
          rfl
        subst ht
        refine ⟨hmi, by omega, ?_⟩
        have := cmdAt_append_self (patchAt instrs j (Command.JumpForward t))
          ⟨Command.JumpBackward j, ch, p⟩
        rw [hpatch_len] at this
        exact this
      · -- a pair patched earlier
        rw [cmdAt_append_lt _ (by omega), cmdAt_patchAt_ne _ hjm] at hcmd
        have hj' : j ∉ m :: stackRest := by
          rw [List.mem_cons]
          push_neg
          exact ⟨hjm, hj⟩
        obtain ⟨h1, h2, h3⟩ := hfwd j t hj' hcmd
        have htm : t ≠ m := by
          intro he
          rw [he, hcm] at h3
          exact Command.noConfusion (Option.some.inj h3)
        refine ⟨h1, by omega, ?_⟩
        rw [cmdAt_append_lt _ (by omega), cmdAt_patchAt_ne _ htm]
        exact h3
    · -- the appended JumpBackward is not a JumpForward
      have hje : j = (patchAt instrs m (Command.JumpForward i)).length := by omega
      rw [hje, cmdAt_append_self] at hcmd
      exact Command.noConfusion (Option.some.inj hcmd)
  · intro j t hcmd
    have hjlt : j < i + 1 := by
      have := cmdAt_lt_length hcmd
      simpa [hpatch_len] using this
    rcases Nat.lt_or_ge j i with hlt | hge
    · rcases eq_or_ne j m with hjm | hjm
      · subst hjm
        rw [cmdAt_append_lt _ (by omega), cmdAt_patchAt_self _ (by omega)] at hcmd
        exact Command.noConfusion (Option.some.inj hcmd)
      · rw [cmdAt_append_lt _ (by omega), cmdAt_patchAt_ne _ hjm] at hcmd
        exact hbwd j t hcmd
    · have hje : j = (patchAt instrs m (Command.JumpForward i)).length := by omega
      rw [hje, cmdAt_append_self] at hcmd
      have := Option.some.inj hcmd
      cases this
      omega

theorem charCommand_ne_jf (ch : Char) (t : Nat) :
    charCommand ch ≠ Command.JumpForward t := by
  unfold charCommand
  split_ifs <;> simp

theorem charCommand_ne_jb (ch : Char) (t : Nat) :
    charCommand ch ≠ Command.JumpBackward t := by
  unfold charCommand
  split_ifs <;> simp

/-- The parse loop carries `ParseInv` from any state satisfying it to
its final state. -/
theorem parseLoop_inv : ∀ (chs : List Char) (i : Nat) (st st2 : ParseState),
    parseLoop chs i st = some st2 →
    ParseInv st.instructions st.brack_stack i →
    ParseInv st2.instructions st2.brack_stack (i + chs.length) := by
  intro chs
  induction chs with
  | nil =>
    intro i st st2 hp hinv
    simp only [parseLoop, Option.some.injEq] at hp
    subst hp
    simpa using hinv
  | cons ch rest ih =>
    intro i st st2 hp hinv
    simp only [parseLoop] at hp
    have harith : (i + 1) + rest.length = i + (ch :: rest).length := by
      simp [List.length_cons]
      omega
    by_cases h1 : ch = '['
    · rw [if_pos h1] at hp
      have := ih (i + 1) _ st2 hp (ParseInv_push ch (st.pos_x, st.pos_y) hinv)
      rwa [harith] at this
    · rw [if_neg h1] at hp
      by_cases h2 : ch = ']'
      · rw [if_pos h2] at hp
        rcases hst : st.brack_stack with _ | ⟨m, sr⟩
        · rw [hst] at hp
          exact Option.noConfusion hp
        · rw [hst] at hp
          have hinv' : ParseInv st.instructions (m :: sr) i := hst ▸ hinv
          have := ih (i + 1) _ st2 hp (ParseInv_pop ch (st.pos_x, st.pos_y) hinv')
          rwa [harith] at this
      · rw [if_neg h2] at hp
        by_cases h3 : ch = '\n'
        · rw [if_pos h3] at hp
          have := ih (i + 1) _ st2 hp
            (ParseInv_append_plain ⟨Command.NoOp, ch, (st.pos_x, st.pos_y + 1)⟩
              (fun t he => Command.noConfusion he)
              (fun t he => Command.noConfusion he) hinv)
          rwa [harith] at this
        · rw [if_neg h3] at hp
          have := ih (i + 1) _ st2 hp
            (ParseInv_append_plain ⟨charCommand ch, ch, (st.pos_x, st.pos_y)⟩
              (charCommand_ne_jf ch) (charCommand_ne_jb ch) hinv)
          rwa [harith] at this

/-- When the remaining text is bracket-balanced relative to the current
stack depth, the parse loop succeeds and finishes with an empty
stack. -/
theorem parseLoop_balanced : ∀ (chs : List Char) (i : Nat) (st : ParseState),
    balCheck chs st.brack_stack.length = true →
    ∃ st2, parseLoop chs i st = some st2 ∧ st2.brack_stack = [] := by
  intro chs
  induction chs with
  | nil =>
    intro i st hb
    simp only [balCheck] at hb
    refine ⟨st, rfl, ?_⟩
    exact List.length_eq_zero.mp (by simpa using hb)
  | cons ch rest ih =>
    intro i st hb
    simp only [balCheck] at hb
    simp only [parseLoop]
    by_cases h1 : ch = '['
    · rw [if_pos h1] at hb ⊢
      exact ih (i + 1) _ (by simpa using hb)
    · rw [if_neg h1] at hb ⊢
      by_cases h2 : ch = ']'
      · rw [if_pos h2] at hb ⊢
        rcases hst : st.brack_stack with _ | ⟨m, sr⟩
        · rw [hst] at hb
          simp at hb
        · rw [hst] at hb
          simp only [List.length_cons] at hb
          exact ih (i + 1) _ (by simpa using hb)
      · rw [if_neg h2] at hb ⊢
        by_cases h3 : ch = '\n'
        · rw [if_pos h3]
          exact ih (i + 1) _ (by simpa using hb)
        · rw [if_neg h3]
          exact ih (i + 1) _ (by simpa using hb)

/-- When the remaining text closes a bracket the current stack cannot
match, the parse loop fails. -/
theorem parseLoop_unmatched : ∀ (chs : List Char) (i : Nat) (st : ParseState),
    unmatchedClose chs st.brack_stack.length = true →
    parseLoop chs i st = none := by
  intro chs
  induction chs with
  | nil =>
    intro i st hb
    simp [unmatchedClose] at hb
  | cons ch rest ih =>
    intro i st hb
    simp only [unmatchedClose] at hb
    simp only [parseLoop]
    by_cases h1 : ch = '['
    · rw [if_pos h1] at hb ⊢
      exact ih (i + 1) _ (by simpa using hb)
    · rw [if_neg h1] at hb ⊢
      by_cases h2 : ch = ']'
      · rw [if_pos h2] at hb ⊢
        rcases hst : st.brack_stack with _ | ⟨m, sr⟩
        · rfl
        · rw [hst] at hb
          simp only [List.length_cons] at hb
          exact ih (i + 1) _ (by simpa using hb)
      · rw [if_neg h2] at hb ⊢
        by_cases h3 : ch = '\n'
        · rw [if_pos h3]
          exact ih (i + 1) _ (by simpa using hb)
        · rw [if_neg h3]
          exact ih (i + 1) _ (by simpa using hb)

/-! ## Concrete states used by the claim theorems -/

/-- A machine whose every tape cell holds 255. -/
def M255 : Machine :=
  { prog := [], data := fun _ => 255, prog_ctr := 0, data_ptr := 0,
    last_data_cell := 0, output := [] }

/-- A machine whose every tape cell holds 0. -/
def M0 : Machine :=
  { prog := [], data := fun _ => 0, prog_ctr := 0, data_ptr := 0,
    last_data_cell := 0, output := [] }

/-- About to run `-` with cell 0 holding 1 (the state reached by the
source `+-` just before its `-`): the decrement lands on 0 at the
tracked extent with every cell to the left zero. -/
def M4 : Machine :=
  { prog := [⟨Command.DecData, '-', (0, 0)⟩], data := fun j => if j = 0 then 1 else 0,
    prog_ctr := 0, data_ptr := 0, last_data_cell := 0, output := [] }

/-- About to run `-` at cell 3 = the tracked extent, with nonzero cells
at 0 and 2: the spec's rescan should stop at 2. -/
def M4b : Machine :=
  { prog := [⟨Command.DecData, '-', (0, 0)⟩],
    data := fun j => if j = 0 ∨ j = 2 ∨ j = 3 then 1 else 0,
    prog_ctr := 0, data_ptr := 3, last_data_cell := 3, output := [] }

/-- The machine built from the source `<` followed by `-`, data pointer
at 0: the next `execute` is a `MoveLeft` at the tape's left edge. -/
def M3 : Machine :=
  { prog := [⟨Command.DecPtr, '<', (0, 0)⟩, ⟨Command.DecData, '-', (1, 0)⟩],
    data := fun _ => 0, prog_ctr := 0, data_ptr := 0, last_data_cell := 0, output := [] }

/-- The machine built from the source `>` followed by `-`, data pointer
at the tape's maximum index 29999: the next `execute` is a `MoveRight`
at the right edge. -/
def M3r : Machine :=
  { prog := [⟨Command.IncPtr, '>', (0, 0)⟩, ⟨Command.DecData, '-', (1, 0)⟩],
    data := fun _ => 0, prog_ctr := 0, data_ptr := 29999, last_data_cell := 0, output := [] }

/-- The machine built from the one-instruction source `+`, about to run
its last instruction. -/
def M7 : Machine :=
  { prog := [⟨Command.IncData, '+', (0, 0)⟩], data := fun _ => 0, prog_ctr := 0,
    data_ptr := 0, last_data_cell := 0, output := [] }

/-- The machine built from the empty source. -/
def M8 : Machine :=
  { prog := [], data := fun _ => 0, prog_ctr := 0, data_ptr := 0,
    last_data_cell := 0, output := [] }

/-- The machine built from the one-character source `,`. -/
def M9 : Machine :=
  { prog := [⟨Command.Input, ',', (0, 0)⟩], data := fun _ => 0, prog_ctr := 0,
    data_ptr := 0, last_data_cell := 0, output := [] }

/-- The final parse state of the source `[[]]`. -/
def st0011 : ParseState :=
  ⟨[⟨Command.JumpForward 3, '[', (0, 0)⟩, ⟨Command.JumpForward 2, '[', (1, 0)⟩,
    ⟨Command.JumpBackward 1, ']', (2, 0)⟩, ⟨Command.JumpBackward 0, ']', (3, 0)⟩],
   [], 4, 0⟩

/-! ## The claims -/

/-- Claim C1: for every source text with balanced brackets, `parse`
succeeds, and in the resulting instruction sequence every `JumpForward`
(JumpIfZero) at index `i` with target `j` has at index `j` a
`JumpBackward` (JumpIfNonZero) whose target is `i`, so following a
jump's target and then that instruction's own target returns to the
original index. -/
theorem C1_parse_balanced_pairs (chs : List Char) (h : balancedBrackets chs) :
    (parse chs).isSome = true ∧
    ∀ i j, cmdAt ((parse chs).getD []) i = some (Command.JumpForward j) →
      cmdAt ((parse chs).getD []) j = some (Command.JumpBackward i) := by
  obtain ⟨st2, hp, hempty⟩ :=
    parseLoop_balanced chs 0 ⟨[], [], 0, 0⟩ (by simpa [balancedBrackets] using h)
  have hinv := parseLoop_inv chs 0 ⟨[], [], 0, 0⟩ st2 hp ParseInv_init
  have hparse : parse chs = some st2.instructions := by
    simp [parse, parseFull, hp]
  refine ⟨by simp [hparse], ?_⟩
  intro i j hcmd
  rw [hparse] at hcmd ⊢
  simp only [Option.getD_some] at hcmd ⊢
  obtain ⟨-, -, -, hfwd, -⟩ := hinv
  exact (hfwd i j (by simp [hempty]) hcmd).2.2

theorem C1_parse_balanced_pairs_witness :
    (parse ['[', ']']).isSome = true ∧
    cmdAt ((parse ['[', ']']).getD []) 1 = some (Command.JumpBackward 0) :=
  ⟨(C1_parse_balanced_pairs ['[', ']'] (by decide)).1,
   (C1_parse_balanced_pairs ['[', ']'] (by decide)).2 0 1 (by decide)⟩

/-- Claim C2: on any machine whose data pointer is on the tape, cell
arithmetic wraps modulo 256: `inc_data` always succeeds and stores
`(v + 1) % 256` (so a cell holding 255 becomes 0), `dec_data` on a
cell holding 0 succeeds and stores 255, and whenever `dec_data`
returns at all the cell holds `(v + 255) % 256`.  (The separate
extent-rescan defect inside `dec_data` is claim C4's subject.) -/
theorem C2_cell_arith_wraps (m : Machine) (h : m.data_ptr < MEM_SIZE) :
    ((inc_data m).map fun m2 => m2.data m.data_ptr) =
      some ((m.data m.data_ptr + 1) % 256) ∧
    (m.data m.data_ptr = 255 →
      ((inc_data m).map fun m2 => m2.data m.data_ptr) = some 0) ∧
    (m.data m.data_ptr = 0 →
      ((dec_data m).map fun m2 => m2.data m.data_ptr) = some 255) ∧
    (∀ m2, dec_data m = some m2 →
      m2.data m.data_ptr = (m.data m.data_ptr + 255) % 256) := by
  have hread : readCell m = some (m.data m.data_ptr) := by simp [readCell, h]
  refine ⟨?_, ?_, ?_, ?_⟩
  · simp [inc_data, hread, updateTape]
  · intro h255
    simp [inc_data, hread, updateTape, h255]
  · intro h0
    simp [dec_data, hread, h0, updateTape]
  · intro m2 hm2
    simp only [dec_data, hread] at hm2
    split at hm2
    · split at hm2
      · exact Option.noConfusion hm2
      · cases Option.some.inj hm2
        simp [updateTape]
    · cases Option.some.inj hm2
      simp [updateTape]

theorem C2_cell_arith_wraps_witness :
    ((inc_data M255).map fun m2 => m2.data 0) = some 0 ∧
    ((dec_data M0).map fun m2 => m2.data 0) = some 255 := by
  constructor
  · have := (C2_cell_arith_wraps M255 (by norm_num [M255, MEM_SIZE])).2.1 rfl
    simpa [M255] using this
  · have := (C2_cell_arith_wraps M0 (by norm_num [M0, MEM_SIZE])).2.2.1 rfl
    simpa [M0] using this

/-- Claim C3 (refuting): executing `MoveLeft` with the data pointer at
0 does NOT fail with a reportable `TapeUnderflow` — there is no error
value in the engine at all.  The `usize` pointer silently wraps to
`2 ^ 64 - 1` (`execute` succeeds!) and the next tape access aborts the
process; symmetrically `MoveRight` at the maximum index 29999 succeeds,
leaving the pointer one past the tape, and the next tape access
aborts. -/
theorem C3_move_bounds_unchecked :
    execute M3 = some { M3 with data_ptr := USIZE - 1 } ∧
    execute { M3 with data_ptr := USIZE - 1, prog_ctr := 1 } = none ∧
    execute M3r = some { M3r with data_ptr := MEM_SIZE } ∧
    execute { M3r with data_ptr := MEM_SIZE, prog_ctr := 1 } = none :=
  ⟨rfl, rfl, rfl, rfl⟩

/-- Claim C4 (refuting): the extent rescan of `dec_data` neither stops
at the first nonzero cell nor stops at index 0.  With every cell left
of the pointer zero it runs past index 0 and aborts (`+-` crashes the
interpreter); and from pointer 3 with a nonzero cell at 2 it reports
extent 0, scanning straight past the first nonzero cell. -/
theorem C4_extent_rescan_is_wrong :
    dec_data M4 = none ∧
    ((dec_data M4b).map fun m2 => m2.last_data_cell) = some 0 ∧
    M4b.data 2 = 1 :=
  ⟨rfl, rfl, rfl⟩

/-- Claim C5 (refuting): a source consisting of a lone excess `[` does
NOT make `parse` fail — `parse` returns the instruction sequence, with
the never-patched `JumpForward 0` placeholder still in it. -/
theorem C5_excess_open_accepted :
    parse ['['] = some [⟨Command.JumpForward 0, '[', (0, 0)⟩] :=
  rfl

/-- Claim C6: a source text containing a `]` with no matching earlier
unclosed `[` makes `parse` pop an empty bracket stack and fail (Rust's
`ok_or(())?`, the parser's sole error path — the error the spec names
UnmatchedCloseBracket) instead of returning an instruction sequence. -/
theorem C6_unmatched_close_fails (chs : List Char) (h : unmatchedClose chs 0 = true) :
    parse chs = none := by
  have hnone : parseLoop chs 0 ⟨[], [], 0, 0⟩ = none :=
    parseLoop_unmatched chs 0 ⟨[], [], 0, 0⟩ (by simpa using h)
  simp [parse, parseFull, hnone]

theorem C6_unmatched_close_fails_witness : parse [']'] = none :=
  C6_unmatched_close_fails [']'] (by decide)

/-- Claim C7 (refuting): when the program counter sits on the last
instruction, the engine does not return a `Completed` value — no such
result value exists.  `inc_prog_ctr` (and hence `advance`, the stepping
function) performs `process::exit(0)` from inside the engine. -/
theorem C7_end_exits_process :
    inc_prog_ctr M7 = StepOutcome.processExit 0 ∧
    advance M7 = StepOutcome.processExit 0 :=
  ⟨rfl, rfl⟩

/-- Claim C8 (half confirming, half refuting): the empty source parses
successfully to an empty instruction sequence, but stepping the
resulting machine does not reach a `Completed` state: the very first
`advance` indexes `prog[0]` of the empty instruction vector and aborts
the process. -/
theorem C8_empty_source_panics :
    Machine.new [] = some M8 ∧ M8.prog = [] ∧ M8.output = [] ∧
    advance M8 = StepOutcome.panic :=
  ⟨rfl, rfl, rfl, rfl⟩

/-- Claim C9 (refuting): executing the `Input` command never stores 0 —
the `Input` arm of `execute` is `todo!()`, which aborts the process
unconditionally, input sink exhausted or not. -/
theorem C9_input_is_todo_panic :
    Machine.new [','] = some M9 ∧ execute M9 = none :=
  ⟨rfl, rfl⟩

/-- Claim C10: in every instruction sequence `parse` returns, each
`JumpBackward` (backward-jump) instruction's target is strictly less
than its own index, and each patched `JumpForward` (forward-jump)
instruction — patched means its index is off the final bracket stack —
has target strictly greater than its own index. -/
theorem C10_jump_directions (chs : List Char) (st : ParseState)
    (h : parseFull chs = some st) :
    (∀ j t, cmdAt st.instructions j = some (Command.JumpBackward t) → t < j) ∧
    (∀ j t, j ∉ st.brack_stack →
      cmdAt st.instructions j = some (Command.JumpForward t) → j < t) := by
  have hinv := parseLoop_inv chs 0 ⟨[], [], 0, 0⟩ st (by simpa [parseFull] using h)
    ParseInv_init
  obtain ⟨-, -, -, hfwd, hbwd⟩ := hinv
  exact ⟨hbwd, fun j t hj hc => (hfwd j t hj hc).1⟩

theorem C10_jump_directions_witness :
    parseFull ['[', '[', ']', ']'] = some st0011 ∧ 1 < 2 ∧ 0 < 3 :=
  ⟨by decide,
   (C10_jump_directions ['[', '[', ']', ']'] st0011 (by decide)).1 2 1 (by decide),
   (C10_jump_directions ['[', '[', ']', ']'] st0011 (by decide)).2 0 3 (by decide)
     (by decide)⟩
